import Mathlib

/-!
Verification of the scylla-go-driver request-execution pipeline.

Shallow embedding of the driver's core data model and operations:
the token-ring lower-bound search, the query executor's retry loop,
the paging iterator (worker loop and consumer Next), session-config
validation, node connection selection, shard-aware port selection,
and the async-exec/fetch handler queue.

Machine integers are modelled as Nat / Int; byte strings as List Nat;
fallible operations return Option / Except.  Channel-driven loops are
modelled by explicit recursion over the list of values the loop would
receive on its channels; a result of `none` marks a point where the Go
code would block waiting for a value that never arrives.
-/

namespace ScyllaDriver

/-! ## Token ring (src/unnamed/part_000)

A `Token` is a signed 64-bit integer; `tokenLowerBound` only compares
tokens, so we model them as `Int`.  Ring entries carry their owning
node, modelled by an opaque numeric id. -/

abbrev Token := Int

structure RingEntry where
  node  : Nat
  token : Token
deriving DecidableEq, Repr

instance : Inhabited RingEntry := ⟨⟨0, 0⟩⟩

abbrev Ring := List RingEntry

/-- The binary-search loop of `Ring.tokenLowerBound` (src/unnamed/part_000
lines 170-179): `start, end := 0, len(r)`; while `start < end`, take
`mid := (start+end)/2`; if `r[mid].token < token` then `start = mid+1`
else `end = mid`.  Both variables coincide at exit. -/
def lbGo (r : Ring) (token : Token) (start stop : Nat) : Nat :=
  if _h : start < stop then
    let mid := (start + stop) / 2
    if (r.getD mid default).token < token then
      lbGo r token (mid + 1) stop
    else
      lbGo r token start mid
  else
    start
termination_by stop - start
decreasing_by
  · have hm : (start + stop) / 2 < stop := by omega
    omega
  · have hm : start ≤ (start + stop) / 2 := by omega
    have hm2 : (start + stop) / 2 < stop := by omega
    omega

/-- Embedding of `Ring.tokenLowerBound` (src/unnamed/part_000 lines
169-186): binary-search for the least index whose token is `≥ token`,
then wrap the past-the-end position to 0. -/
def Ring.tokenLowerBound (r : Ring) (token : Token) : Nat :=
  let e := lbGo r token 0 r.length
  if r.length ≤ e then 0 else e

/-- Non-decreasing order of ring entries by token. -/
def ringSorted (r : Ring) : Prop :=
  List.Pairwise (fun a b => a.token ≤ b.token) r

/-- Token at position `i` of the ring (out-of-range reads give the
default entry; all uses are in range). -/
def tokAt (r : Ring) (i : Nat) : Token := (r.getD i default).token

theorem tokAt_mono (r : Ring) (hs : ringSorted r) :
    ∀ i j, i ≤ j → j < r.length → tokAt r i ≤ tokAt r j := by
  intro i j hij hj
  rcases Nat.eq_or_lt_of_le hij with rfl | hlt
  · exact le_refl _
  · have hi : i < r.length := Nat.lt_trans hlt hj
    have := List.pairwise_iff_get.mp hs ⟨i, hi⟩ ⟨j, hj⟩ hlt
    simpa [tokAt, List.getD_eq_getElem?_getD, List.getElem?_eq_getElem hi,
      List.getElem?_eq_getElem hj, List.get_eq_getElem] using this

theorem lbGo_spec (r : Ring) (t : Token) (hs : ringSorted r) :
    ∀ n start stop, stop - start = n → start ≤ stop → stop ≤ r.length →
    (∀ k, k < start → tokAt r k < t) →
    (∀ k, stop ≤ k → k < r.length → t ≤ tokAt r k) →
    (∀ k, k < lbGo r t start stop → tokAt r k < t) ∧
    (∀ k, lbGo r t start stop ≤ k → k < r.length → t ≤ tokAt r k) ∧
    start ≤ lbGo r t start stop ∧ lbGo r t start stop ≤ stop := by
  intro n
  induction n using Nat.strong_induction_on with
  | _ n ih =>
    intro start stop hn hse hsl hlow hhigh
    rw [lbGo]
    by_cases h : start < stop
    · simp only [h, dif_pos]
      have hmid_lt : (start + stop) / 2 < stop := by omega
      have hmid_ge : start ≤ (start + stop) / 2 := by omega
      set mid := (start + stop) / 2 with hmid
      by_cases hc : (r.getD mid default).token < t
      · simp only [hc, if_pos]
        have hlow' : ∀ k, k < mid + 1 → tokAt r k < t := by
          intro k hk
          by_cases hks : k < start
          · exact hlow k hks
          · have hk' : k ≤ mid := by omega
            have hkr : mid < r.length := by omega
            exact lt_of_le_of_lt (tokAt_mono r hs k mid hk' hkr) hc
        have := ih (stop - (mid + 1)) (by omega) (mid + 1) stop rfl
          (by omega) hsl hlow' hhigh
        exact ⟨this.1, this.2.1, by omega, this.2.2.2⟩
      · simp only [hc, if_neg, not_false_iff]
        push_neg at hc
        have hhigh' : ∀ k, mid ≤ k → k < r.length → t ≤ tokAt r k := by
          intro k hk hkr
          exact le_trans hc (tokAt_mono r hs mid k hk hkr)
        have := ih (mid - start) (by omega) start mid rfl
          (by omega) (by omega) hlow hhigh'
        exact ⟨this.1, this.2.1, this.2.2.1, by omega⟩
    · simp only [h, dif_neg, not_false_iff]
      have : start = stop := by omega
      exact ⟨hlow, by simpa [this] using hhigh, le_refl _, by omega⟩

/-- C1.  For a ring sorted non-decreasingly by token, `tokenLowerBound`
returns the least index whose entry's token is at least the argument,
and returns 0 when every entry's token is below the argument
(wraparound). -/
theorem tokenLowerBound_correct (r : Ring) (t : Token)
    (hs : ringSorted r) :
    ((∃ i, i < r.length ∧ t ≤ tokAt r i) →
      Ring.tokenLowerBound r t < r.length ∧
      t ≤ tokAt r (Ring.tokenLowerBound r t) ∧
      (∀ j, j < Ring.tokenLowerBound r t → tokAt r j < t)) ∧
    ((∀ i, i < r.length → tokAt r i < t) →
      Ring.tokenLowerBound r t = 0) := by
  have hspec := lbGo_spec r t hs (r.length - 0) 0 r.length rfl
    (Nat.zero_le _) (le_refl _)
    (fun k hk => absurd hk (Nat.not_lt_zero k))
    (fun k hk hk2 => absurd (Nat.lt_of_lt_of_le hk2 hk) (lt_irrefl k))
  obtain ⟨hlow, hhigh, -, hle⟩ := hspec
  constructor
  · rintro ⟨i, hi, hti⟩
    have hlb_lt : lbGo r t 0 r.length < r.length := by
      by_contra hcon
      push_neg at hcon
      have : i < lbGo r t 0 r.length := Nat.lt_of_lt_of_le hi hcon
      exact absurd hti (not_le.mpr (hlow i this))
    have : Ring.tokenLowerBound r t = lbGo r t 0 r.length := by
      unfold Ring.tokenLowerBound
      simp [Nat.not_le.mpr hlb_lt]
    rw [this]
    exact ⟨hlb_lt, hhigh _ (le_refl _) hlb_lt, hlow⟩
  · intro hall
    have hlb_ge : r.length ≤ lbGo r t 0 r.length := by
      by_contra hcon
      push_neg at hcon
      exact absurd (hhigh _ (le_refl _) hcon)
        (not_le.mpr (hall _ hcon))
    unfold Ring.tokenLowerBound
    simp [hlb_ge]

/-- Witness for C1 on a concrete sorted three-entry ring: token 5 lands
on index 1 (the least entry with token ≥ 5), and a token above every
entry wraps to 0. -/
theorem tokenLowerBound_correct_witness :
    (let r : Ring := [⟨1, 2⟩, ⟨2, 5⟩, ⟨3, 9⟩]
     Ring.tokenLowerBound r 5 < r.length ∧
     5 ≤ tokAt r (Ring.tokenLowerBound r 5) ∧
     (∀ j, j < Ring.tokenLowerBound r 5 → tokAt r j < 5)) ∧
    (let r : Ring := [⟨1, 2⟩, ⟨2, 5⟩, ⟨3, 9⟩]
     Ring.tokenLowerBound r 100 = 0) := by
  refine ⟨?_, ?_⟩
  · exact (tokenLowerBound_correct [⟨1, 2⟩, ⟨2, 5⟩, ⟨3, 9⟩] 5
      (by unfold ringSorted; decide)).1 ⟨1, by decide, by decide⟩
  · exact (tokenLowerBound_correct [⟨1, 2⟩, ⟨2, 5⟩, ⟨3, 9⟩] 100
      (by unfold ringSorted; decide)).2 (by decide)

/-! ## Errors and retry decisions

`QErr` gathers the driver's error values relevant to the claims:
server-side errors carry the class the retry decider inspects, the
rest are the distinguished sentinel errors of src/query.go,
src/session.go, src/unnamed/part_000 and src/transport/conn.go. -/

inductive ErrClass where
  | readTimeoutDataPresent
  | writeTimeoutLoggedBatch
  | unavailable
  | overloaded
  | bootstrapping
  | transport
  | badRequest
  | otherClass
deriving DecidableEq, Repr

inductive QErr where
  | server (cls : ErrClass) (id : Nat)
  | noConnToExec
  | noQueryResults
  | noMoreRows
  | nodeDown (hostId : Nat)
  | cantPickNode
  | allPortsBusy
  | configNoHosts
  | configBadEvent
  | configBadConsistency
deriving DecidableEq, Repr

/-- Class the retry decider sees for an error: the server-reported class
for server errors, the catch-all class otherwise. -/
def errClass : QErr → ErrClass
  | .server cls _ => cls
  | _ => .otherClass

inductive RetryDecision where
  | retrySame
  | retryNext
  | dontRetry
deriving DecidableEq, Repr

/-- Embedding of `transport.RetryInfo` (mirrors the literal built at
src/query.go lines 62-66): error class, statement idempotence,
consistency. -/
structure RetryInfo where
  cls : ErrClass
  idempotent : Bool
  consistency : Nat
deriving DecidableEq, Repr

/-- Modelled from the spec: the implementation of `transport.RetryDecider`
is not under src/ (only its callers are); this decider follows the
decision table of the spec's retry-decider section: read timeout with
data present and logged-batch write timeout retry the same node once,
unavailable retries the next node once, overloaded/bootstrapping retry
the next node, a transport error retries the next node only for
idempotent statements and is never retried otherwise, bad requests are
never retried; an attempt counter caps total retries at a bound. -/
structure RetryDecider where
  sameNodeUsed : Bool
  unavailableUsed : Bool
  retries : Nat
  maxRetries : Nat
deriving DecidableEq, Repr

def newRetryDecider : RetryDecider := ⟨false, false, 0, 8⟩

def RetryDecider.decide (rd : RetryDecider) (ri : RetryInfo) :
    RetryDecision × RetryDecider :=
  if rd.maxRetries ≤ rd.retries then (.dontRetry, rd)
  else
    match ri.cls with
    | .readTimeoutDataPresent =>
        if rd.sameNodeUsed then (.dontRetry, rd)
        else (.retrySame, { rd with sameNodeUsed := true, retries := rd.retries + 1 })
    | .writeTimeoutLoggedBatch =>
        if rd.sameNodeUsed then (.dontRetry, rd)
        else (.retrySame, { rd with sameNodeUsed := true, retries := rd.retries + 1 })
    | .unavailable =>
        if rd.unavailableUsed then (.dontRetry, rd)
        else (.retryNext, { rd with unavailableUsed := true, retries := rd.retries + 1 })
    | .overloaded => (.retryNext, { rd with retries := rd.retries + 1 })
    | .bootstrapping => (.retryNext, { rd with retries := rd.retries + 1 })
    | .transport =>
        if ri.idempotent then (.retryNext, { rd with retries := rd.retries + 1 })
        else (.dontRetry, rd)
    | .badRequest => (.dontRetry, rd)
    | .otherClass => (.dontRetry, rd)

theorem decide_transport_nonidempotent (rd : RetryDecider) (ri : RetryInfo)
    (hcls : ri.cls = .transport) (hid : ri.idempotent = false) :
    (rd.decide ri).1 = .dontRetry := by
  unfold RetryDecider.decide
  by_cases h : rd.maxRetries ≤ rd.retries <;> simp [h, hcls, hid]

/-! ## The query executor (src/query.go, Query.Exec, lines 36-93)

A statement carries the fields the executor reads.  The behaviour of
the network and of node connection pools is supplied as an oracle: the
list of attempt outcomes, consumed one per inner-loop iteration.  An
outcome is either a connection-acquisition failure (`n.Conn(info)`
errors, line 54), a successful `q.exec` call, or a failed one. -/

structure Statement where
  content : String
  consistency : Nat
  idempotent : Bool
deriving DecidableEq, Repr

structure QueryResult where
  rows : List Nat
  pagingState : Option (List Nat)
  hasMorePages : Bool
deriving DecidableEq, Repr

inductive AttemptOutcome where
  | connErr (e : QErr)
  | execOk (res : QueryResult)
  | execErr (e : QErr)
deriving DecidableEq, Repr

/-- Embedding of the `for n != nil` loop of `Query.Exec` (src/query.go
lines 47-93).  `policy i` is `q.session.cfg.HostSelectionPolicy.Node(info, i)`
(node identity is opaque); `rd` is nil until the first failure (line 68);
`lastErr` the last recorded error.  Returns the result (`none` when the
supplied outcomes run out mid-loop, a situation the claims exclude) and
the number of network attempts (`q.exec` calls) performed. -/
def execGo (policy : Nat → Option Nat) (stmt : Statement)
    (outs : List AttemptOutcome) (i : Nat) (rd : Option RetryDecider)
    (lastErr : Option QErr) : Option (Except QErr QueryResult) × Nat :=
  match outs with
  | [] =>
      match policy i with
      | none => (some (.error (lastErr.getD QErr.noConnToExec)), 0)
      | some _ => (none, 0)
  | o :: rest =>
      match policy i with
      | none => (some (.error (lastErr.getD QErr.noConnToExec)), 0)
      | some _ =>
        match o with
        | .connErr e => execGo policy stmt rest (i + 1) rd (some e)
        | .execOk res => (some (.ok res), 1)
        | .execErr e =>
            let rd0 := rd.getD newRetryDecider
            let p := rd0.decide ⟨errClass e, stmt.idempotent, stmt.consistency⟩
            match p.1 with
            | .retrySame =>
                let q := execGo policy stmt rest i (some p.2) lastErr
                (q.1, q.2 + 1)
            | .retryNext =>
                let q := execGo policy stmt rest (i + 1) (some p.2) (some e)
                (q.1, q.2 + 1)
            | .dontRetry => (some (.error e), 1)

/-- Outcomes in which every network attempt fails with a transport
(connection) error; connection-acquisition failures are allowed, since
they involve no network attempt. -/
def transportOnly : AttemptOutcome → Prop
  | .connErr _ => True
  | .execOk _ => False
  | .execErr e => errClass e = .transport

theorem execGo_attempts_le_one (policy : Nat → Option Nat)
    (stmt : Statement) (hid : stmt.idempotent = false) :
    ∀ outs i rd lastErr, (∀ o ∈ outs, transportOnly o) →
    (execGo policy stmt outs i rd lastErr).2 ≤ 1 := by
  intro outs
  induction outs with
  | nil =>
    intro i rd lastErr _
    cases h : policy i <;> simp [execGo, h]
  | cons o rest ih =>
    intro i rd lastErr hall
    cases h : policy i with
    | none => simp [execGo, h]
    | some nd =>
      cases o with
      | connErr e =>
        have := ih (i + 1) rd (some e)
          (fun o ho => hall o (List.mem_cons_of_mem _ ho))
        simpa [execGo, h] using this
      | execOk res => exact absurd (hall _ (List.mem_cons_self _ _)) id
      | execErr e =>
        have hcls : errClass e = .transport := hall _ (List.mem_cons_self _ _)
        have hdec := decide_transport_nonidempotent (rd.getD newRetryDecider)
          ⟨errClass e, stmt.idempotent, stmt.consistency⟩ hcls hid
        simp only [execGo, h]
        rw [hdec]

theorem execGo_ok_mem (policy : Nat → Option Nat) (stmt : Statement) :
    ∀ outs i rd lastErr res,
    (execGo policy stmt outs i rd lastErr).1 = some (.ok res) →
    AttemptOutcome.execOk res ∈ outs := by
  intro outs
  induction outs with
  | nil =>
    intro i rd lastErr res h
    cases hp : policy i <;> simp [execGo, hp] at h
  | cons o rest ih =>
    intro i rd lastErr res h
    cases hp : policy i with
    | none => simp [execGo, hp] at h
    | some nd =>
      cases o with
      | connErr e =>
        simp only [execGo, hp] at h
        exact List.mem_cons_of_mem _ (ih _ _ _ _ h)
      | execOk r =>
        simp only [execGo, hp, Option.some.injEq, Except.ok.injEq] at h
        subst h
        exact List.mem_cons_self _ _
      | execErr e =>
        rcases hd : ((rd.getD newRetryDecider).decide
            ⟨errClass e, stmt.idempotent, stmt.consistency⟩).1 with _ | _ | _
        all_goals simp only [execGo, hp, hd] at h
        · exact List.mem_cons_of_mem _ (ih _ _ _ _ h)
        · exact List.mem_cons_of_mem _ (ih _ _ _ _ h)
        · simp at h

/-- C2.  For a non-idempotent statement, an attempt failing with a
transport (connection) error ends the execution at once: `Exec` returns
that error having consumed exactly that one attempt, whatever outcomes
would have followed; and over any outcome sequence whose network
attempts all fail with transport errors, at most one network attempt is
made. -/
theorem exec_nonidempotent_transport_single_attempt
    (policy : Nat → Option Nat) (stmt : Statement) (i : Nat)
    (rd : Option RetryDecider) (lastErr : Option QErr)
    (hid : stmt.idempotent = false) :
    (∀ (e : QErr) (rest : List AttemptOutcome) (node : Nat),
      policy i = some node → errClass e = .transport →
      execGo policy stmt (.execErr e :: rest) i rd lastErr
        = (some (.error e), 1)) ∧
    (∀ outs : List AttemptOutcome, (∀ o ∈ outs, transportOnly o) →
      (execGo policy stmt outs i rd lastErr).2 ≤ 1) := by
  constructor
  · intro e rest node hn hcls
    have hdec := decide_transport_nonidempotent (rd.getD newRetryDecider)
      ⟨errClass e, stmt.idempotent, stmt.consistency⟩ hcls hid
    simp only [execGo, hn]
    rw [hdec]
  · intro outs hall
    exact execGo_attempts_le_one policy stmt hid outs i rd lastErr hall

/-- Witness for C2: a single-node policy, a non-idempotent statement,
and a first attempt failing with a transport error: the executor
returns that error after exactly one attempt; with a preceding
connection-acquisition failure the attempt count still stays at one. -/
theorem exec_nonidempotent_transport_single_attempt_witness :
    execGo (fun _ => some 0) ⟨"INSERT", 1, false⟩
      [.execErr (.server .transport 7)] 0 none none
      = (some (.error (.server .transport 7)), 1) ∧
    (execGo (fun _ => some 0) ⟨"INSERT", 1, false⟩
      [.connErr (.server .transport 3), .execErr (.server .transport 7)]
      0 none none).2 ≤ 1 := by
  constructor
  · exact (exec_nonidempotent_transport_single_attempt (fun _ => some 0)
      ⟨"INSERT", 1, false⟩ 0 none none rfl).1 (.server .transport 7) [] 0 rfl rfl
  · refine (exec_nonidempotent_transport_single_attempt (fun _ => some 0)
      ⟨"INSERT", 1, false⟩ 0 none none rfl).2 _ ?_
    intro o ho
    rcases List.mem_cons.mp ho with rfl | ho
    · trivial
    · rcases List.mem_cons.mp ho with rfl | ho
      · rfl
      · simp at ho

/-- C4.  The executor returns a successful attempt's result immediately
(one attempt consumed, whatever outcomes would have followed), any
returned success originates from an attempt, and when the policy is
exhausted at offset `i`, `Exec` returns the last recorded error when
there is one and a no-connection error otherwise. -/
theorem exec_success_immediate_policy_exhausted
    (policy : Nat → Option Nat) (stmt : Statement) (i : Nat)
    (rd : Option RetryDecider) (lastErr : Option QErr) :
    (∀ (res : QueryResult) (rest : List AttemptOutcome) (node : Nat),
      policy i = some node →
      execGo policy stmt (.execOk res :: rest) i rd lastErr
        = (some (.ok res), 1)) ∧
    (∀ (outs : List AttemptOutcome) (res : QueryResult),
      (execGo policy stmt outs i rd lastErr).1 = some (.ok res) →
      AttemptOutcome.execOk res ∈ outs) ∧
    (policy i = none →
      ∀ outs : List AttemptOutcome,
      execGo policy stmt outs i rd lastErr
        = (some (.error (lastErr.getD QErr.noConnToExec)), 0)) := by
  refine ⟨?_, ?_, ?_⟩
  · intro res rest node hn
    simp [execGo, hn]
  · intro outs res h
    exact execGo_ok_mem policy stmt outs i rd lastErr res h
  · intro hn outs
    cases outs <;> simp [execGo, hn]

/-- Witness for C4: a successful first attempt is returned with exactly
one attempt made; an exhausted policy returns the recorded error when
present and the no-connection error when not. -/
theorem exec_success_immediate_policy_exhausted_witness :
    execGo (fun _ => some 0) ⟨"SELECT", 1, true⟩
      [.execOk ⟨[4], none, false⟩, .execErr (.server .transport 7)]
      0 none none
      = (some (.ok ⟨[4], none, false⟩), 1) ∧
    AttemptOutcome.execOk ⟨[4], none, false⟩ ∈
      ([.execOk ⟨[4], none, false⟩] : List AttemptOutcome) ∧
    execGo (fun _ => none) ⟨"SELECT", 1, true⟩ [] 0 none
      (some (.server .unavailable 2))
      = (some (.error (.server .unavailable 2)), 0) ∧
    execGo (fun _ => none) ⟨"SELECT", 1, true⟩ [] 0 none none
      = (some (.error .noConnToExec), 0) := by
  refine ⟨?_, ?_, ?_, ?_⟩
  · exact (exec_success_immediate_policy_exhausted (fun _ => some 0)
      ⟨"SELECT", 1, true⟩ 0 none none).1 ⟨[4], none, false⟩
      [.execErr (.server .transport 7)] 0 rfl
  · exact (exec_success_immediate_policy_exhausted (fun _ => some 0)
      ⟨"SELECT", 1, true⟩ 0 none none).2.1
      [.execOk ⟨[4], none, false⟩] ⟨[4], none, false⟩ (by rfl)
  · exact (exec_success_immediate_policy_exhausted (fun _ => none)
      ⟨"SELECT", 1, true⟩ 0 none (some (.server .unavailable 2))).2.2 rfl []
  · exact (exec_success_immediate_policy_exhausted (fun _ => none)
      ⟨"SELECT", 1, true⟩ 0 none none).2.2 rfl []

/-! ## Paging state handed to attempts (src/query.go)

`Query.SetPageState` stores the caller's page state in `q.pageState`
(lines 261-263).  What each execution path then hands to the
connection is embedded below. -/

/-- Embedding of the paging-state argument `Query.Exec` passes to every
attempt (src/query.go line 60): the call is
`q.exec(ctx, conn, q.stmt, nil)` — a literal nil, whatever
`q.pageState` holds. -/
def execAttemptPagingState (_qPageState : Option (List Nat)) :
    Option (List Nat) := none

/-- Embedding of the paging state `Query.Iter` hands to its worker
(src/query.go lines 303-307 and 334): the outer `var pageState []byte`
stays nil, because the `pageState := make(...)` inside the `if` block
declares a new variable that shadows the outer one; the worker is
built from the outer, still-nil variable. -/
def iterWorkerInitPagingState (qPageState : Option (List Nat)) :
    Option (List Nat) :=
  let pageState : Option (List Nat) := none
  match qPageState with
  | some ps =>
      let _shadowed : Option (List Nat) := some ps
      pageState
  | none => pageState

/-- C3 (code bug).  With a non-nil page state stored by `SetPageState`,
`Query.Exec` hands nil to the connection and `Query.Iter`'s worker
starts from nil: the stored page state is dropped by both paths. -/
theorem pageState_dropped :
    execAttemptPagingState (some [1]) = none ∧
    iterWorkerInitPagingState (some [1]) = none ∧
    iterWorkerInitPagingState (some [1]) ≠ some [1] := by
  refine ⟨rfl, rfl, ?_⟩
  simp [iterWorkerInitPagingState]

/-! ## Session configuration validation (src/session.go lines 14-99) -/

def TopologyChange : String := "TOPOLOGY_CHANGE"
def StatusChange : String := "STATUS_CHANGE"
def SchemaChange : String := "SCHEMA_CHANGE"

def LOCALONE : Nat := 0x0A

structure SessionConfig where
  hosts : List String
  events : List String
  defaultConsistency : Nat
deriving DecidableEq, Repr

/-- Event strings accepted by the validation loop of
`SessionConfig.Validate` (src/session.go line 91). -/
def validEvent (e : String) : Bool :=
  e = TopologyChange || e = StatusChange || e = SchemaChange

/-- Embedding of `SessionConfig.Validate` (src/session.go lines 86-99):
no hosts, then a bad event, then a default consistency above
`LOCALONE`, in that order; `none` on success. -/
def SessionConfig.Validate (cfg : SessionConfig) : Option QErr :=
  if cfg.hosts.length = 0 then some .configNoHosts
  else if cfg.events.any (fun e => !(validEvent e)) then some .configBadEvent
  else if LOCALONE < cfg.defaultConsistency then some .configBadConsistency
  else none

/-- C6 counterexample.  A configuration with no hosts and an invalid
event fails with the hosts error, not the event error: the event error
is not returned exactly when an invalid event is present. -/
theorem validate_event_error_not_exact :
    (∃ e ∈ (SessionConfig.mk [] ["X"] 0).events, validEvent e = false) ∧
    (SessionConfig.mk [] ["X"] 0).Validate ≠ some .configBadEvent := by
  constructor
  · exact ⟨"X", by simp, by decide⟩
  · decide

/-- C6 (amended).  `Validate` fails with the hosts error exactly when
the host list is empty; with the event error exactly when the host
list is non-empty and some event is invalid; with the consistency
error exactly when the host list is non-empty, all events are valid,
and the default consistency exceeds `LOCALONE`; and succeeds in every
other case. -/
theorem validate_characterization (cfg : SessionConfig) :
    (cfg.Validate = some .configNoHosts ↔ cfg.hosts = []) ∧
    (cfg.Validate = some .configBadEvent ↔
      cfg.hosts ≠ [] ∧ ∃ e ∈ cfg.events, validEvent e = false) ∧
    (cfg.Validate = some .configBadConsistency ↔
      cfg.hosts ≠ [] ∧ (∀ e ∈ cfg.events, validEvent e = true) ∧
      LOCALONE < cfg.defaultConsistency) ∧
    (cfg.Validate = none ↔
      cfg.hosts ≠ [] ∧ (∀ e ∈ cfg.events, validEvent e = true) ∧
      cfg.defaultConsistency ≤ LOCALONE) := by
  rcases cfg with ⟨hosts, events, dc⟩
  unfold SessionConfig.Validate
  by_cases h1 : hosts = []
  · simp [h1]
  · have h1' : ¬ hosts.length = 0 := by
      simpa [List.length_eq_zero] using h1
    by_cases h2 : events.any (fun e => !(validEvent e))
    · have h2' : ∃ e ∈ events, validEvent e = false := by
        simpa [List.any_eq_true] using h2
      obtain ⟨e0, he0, hbad0⟩ := h2'
      rw [if_neg h1', if_pos h2]
      refine ⟨⟨fun h => by simp at h, fun h => absurd h h1⟩,
        ⟨fun _ => ⟨h1, e0, he0, hbad0⟩, fun _ => rfl⟩, ?_, ?_⟩
      · refine ⟨fun h => by simp at h, ?_⟩
        rintro ⟨-, hall, -⟩
        have := hall e0 he0
        rw [hbad0] at this
        exact Bool.noConfusion this
      · refine ⟨fun h => by simp at h, ?_⟩
        rintro ⟨-, hall, -⟩
        have := hall e0 he0
        rw [hbad0] at this
        exact Bool.noConfusion this
    · have h2' : ∀ e ∈ events, validEvent e = true := by
        intro e he
        by_contra hc
        exact h2 (List.any_eq_true.mpr ⟨e, he, by simp [hc]⟩)
      by_cases h3 : LOCALONE < dc
      · rw [if_neg h1', if_neg h2, if_pos h3]
        refine ⟨⟨fun h => by simp at h, fun h => absurd h h1⟩,
          ?_, iff_of_true rfl ⟨h1, h2', h3⟩,
          ⟨fun h => by simp at h, fun h => absurd h3 (Nat.not_lt.mpr h.2.2)⟩⟩
        refine ⟨fun h => by simp at h, ?_⟩
        rintro ⟨-, e, he, hbad⟩
        have := h2' e he
        rw [hbad] at this
        exact Bool.noConfusion this
      · rw [if_neg h1', if_neg h2, if_neg h3]
        refine ⟨⟨fun h => by simp at h, fun h => absurd h h1⟩,
          ?_, ⟨fun h => by simp at h, fun h => absurd h.2.2 h3⟩,
          iff_of_true rfl ⟨h1, h2', Nat.le_of_not_lt h3⟩⟩
        refine ⟨fun h => by simp at h, ?_⟩
        rintro ⟨-, e, he, hbad⟩
        have := h2' e he
        rw [hbad] at this
        exact Bool.noConfusion this

/-! ## Node connection selection (src/unnamed/part_000 lines 72-88)

The connection-pool implementation is not under src/; the pool is kept
abstract: what it returns for a token-aware lookup and for the
least-busy lookup are fields.  Connections are opaque ids. -/

structure ConnPool where
  connByToken : Token → Except QErr Nat
  leastBusy : Except QErr Nat

structure NodeM where
  hostId : Nat
  status : Bool
  pool : ConnPool

structure QueryInfoM where
  tokenAware : Bool
  token : Token
deriving DecidableEq, Repr

/-- Embedding of `Node.LeastBusyConn` (src/unnamed/part_000 lines
72-78): a down node yields an error, an up node defers to the pool. -/
def NodeM.LeastBusyConn (n : NodeM) : Except QErr Nat :=
  if n.status then n.pool.leastBusy else .error (.nodeDown n.hostId)

/-- Embedding of `Node.Conn` (src/unnamed/part_000 lines 79-88): a down
node yields an error; otherwise a token-aware query gets the shard
connection for its token, any other query the least busy connection. -/
def NodeM.Conn (n : NodeM) (qi : QueryInfoM) : Except QErr Nat :=
  if n.status then
    if qi.tokenAware then n.pool.connByToken qi.token
    else n.LeastBusyConn
  else .error (.nodeDown n.hostId)

/-- C7.  Both connection lookups on a down node return an error (and so
no connection), and on an up node `Conn` returns the pool's shard
connection for the token when the query is token-aware and the least
busy connection otherwise. -/
theorem node_conn_selection (n : NodeM) (qi : QueryInfoM) :
    (n.status = false →
      n.Conn qi = .error (.nodeDown n.hostId) ∧
      n.LeastBusyConn = .error (.nodeDown n.hostId)) ∧
    (n.status = true → qi.tokenAware = true →
      n.Conn qi = n.pool.connByToken qi.token) ∧
    (n.status = true → qi.tokenAware = false →
      n.Conn qi = n.pool.leastBusy) := by
  refine ⟨?_, ?_, ?_⟩
  · intro h
    exact ⟨by simp [NodeM.Conn, h], by simp [NodeM.LeastBusyConn, h]⟩
  · intro h ht
    simp [NodeM.Conn, h, ht]
  · intro h ht
    simp [NodeM.Conn, NodeM.LeastBusyConn, h, ht]

/-- Witness for C7 on concrete nodes: a down node rejects both lookups;
an up node routes a token-aware query to the shard connection and a
non-token-aware one to the least busy connection. -/
theorem node_conn_selection_witness :
    (NodeM.mk 1 false ⟨fun _ => .ok 5, .ok 9⟩).Conn ⟨true, 42⟩
      = .error (.nodeDown 1) ∧
    (NodeM.mk 1 false ⟨fun _ => .ok 5, .ok 9⟩).LeastBusyConn
      = .error (.nodeDown 1) ∧
    (NodeM.mk 1 true ⟨fun _ => .ok 5, .ok 9⟩).Conn ⟨true, 42⟩ = .ok 5 ∧
    (NodeM.mk 1 true ⟨fun _ => .ok 5, .ok 9⟩).Conn ⟨false, 42⟩ = .ok 9 := by
  refine ⟨?_, ?_, ?_, ?_⟩
  · exact ((node_conn_selection (NodeM.mk 1 false ⟨fun _ => .ok 5, .ok 9⟩)
      ⟨true, 42⟩).1 rfl).1
  · exact ((node_conn_selection (NodeM.mk 1 false ⟨fun _ => .ok 5, .ok 9⟩)
      ⟨true, 42⟩).1 rfl).2
  · exact (node_conn_selection (NodeM.mk 1 true ⟨fun _ => .ok 5, .ok 9⟩)
      ⟨true, 42⟩).2.1 rfl rfl
  · exact (node_conn_selection (NodeM.mk 1 true ⟨fun _ => .ok 5, .ok 9⟩)
      ⟨false, 42⟩).2.2 rfl rfl

/-! ## Shard-aware port selection (src/transport/conn.go lines 205-216)

`OpenShardConn` draws candidate local ports from `ShardPortIterator(si)`
and tries to open each; dialing is external, so the attempt at try
index `k` is the oracle `tryOpen k` (`some c` when
`OpenLocalPortConn(addr, it(), cfg)` yields a connection).  The
constants `minPort`/`maxPort` are defined outside src/ and stay
symbolic. -/

def shardConnGo (tryOpen : Nat → Option Nat) (i remaining : Nat) :
    Option Nat × Nat :=
  match remaining with
  | 0 => (none, 0)
  | r + 1 =>
    match tryOpen i with
    | some c => (some c, 1)
    | none =>
        let q := shardConnGo tryOpen (i + 1) r
        (q.1, q.2 + 1)

/-- Embedding of `OpenShardConn` (src/transport/conn.go lines 205-216):
`maxTries := (maxPort-minPort+1)/NrShards + 1` candidate ports, first
success wins, exhaustion yields the all-ports-busy error.  The second
component counts dial attempts performed. -/
def OpenShardConn (tryOpen : Nat → Option Nat)
    (minPort maxPort nrShards : Nat) : Except QErr Nat × Nat :=
  let maxTries := (maxPort - minPort + 1) / nrShards + 1
  let q := shardConnGo tryOpen 0 maxTries
  match q.1 with
  | some c => (.ok c, q.2)
  | none => (.error .allPortsBusy, q.2)

theorem shardConnGo_tries_le (tryOpen : Nat → Option Nat) :
    ∀ remaining i, (shardConnGo tryOpen i remaining).2 ≤ remaining := by
  intro remaining
  induction remaining with
  | zero => intro i; simp [shardConnGo]
  | succ r ih =>
    intro i
    cases h : tryOpen i with
    | some c => simp [shardConnGo, h]
    | none => simpa [shardConnGo, h] using ih (i + 1)

theorem shardConnGo_all_fail (tryOpen : Nat → Option Nat) :
    ∀ remaining i, (∀ k, k < remaining → tryOpen (i + k) = none) →
    shardConnGo tryOpen i remaining = (none, remaining) := by
  intro remaining
  induction remaining with
  | zero => intro i _; simp [shardConnGo]
  | succ r ih =>
    intro i hall
    have h0 : tryOpen i = none := by simpa using hall 0 (Nat.succ_pos r)
    have hrec := ih (i + 1) (fun k hk => by
      have := hall (k + 1) (Nat.succ_lt_succ hk)
      simpa [Nat.add_assoc, Nat.add_comm 1 k] using this)
    simp [shardConnGo, h0, hrec]

theorem shardConnGo_first_success (tryOpen : Nat → Option Nat) :
    ∀ j remaining i c, j < remaining →
    (∀ k, k < j → tryOpen (i + k) = none) → tryOpen (i + j) = some c →
    shardConnGo tryOpen i remaining = (some c, j + 1) := by
  intro j
  induction j with
  | zero =>
    intro remaining i c hlt _ hj
    cases remaining with
    | zero => exact absurd hlt (lt_irrefl 0)
    | succ r => simp only [shardConnGo]; rw [show tryOpen i = some c by simpa using hj]
  | succ j ih =>
    intro remaining i c hlt hbefore hj
    cases remaining with
    | zero => exact absurd hlt (Nat.not_lt_zero _)
    | succ r =>
      have h0 : tryOpen i = none := by simpa using hbefore 0 (Nat.succ_pos j)
      have hrec := ih r (i + 1) c (Nat.lt_of_succ_lt_succ hlt)
        (fun k hk => by
          have := hbefore (k + 1) (Nat.succ_lt_succ hk)
          simpa [Nat.add_assoc, Nat.add_comm 1 k] using this)
        (by simpa [Nat.add_assoc, Nat.add_comm 1 j] using hj)
      simp [shardConnGo, h0, hrec]

/-- C9.  With a positive shard count, `OpenShardConn` performs at most
`(maxPort - minPort + 1) / NrShards + 1` dial attempts, returns the
first successfully opened connection, and returns the all-ports-busy
error when every candidate port fails. -/
theorem openShardConn_bounded (tryOpen : Nat → Option Nat)
    (minPort maxPort nrShards : Nat) (hpos : 0 < nrShards) :
    (OpenShardConn tryOpen minPort maxPort nrShards).2
      ≤ (maxPort - minPort + 1) / nrShards + 1 ∧
    ((∀ k, k < (maxPort - minPort + 1) / nrShards + 1 → tryOpen k = none) →
      OpenShardConn tryOpen minPort maxPort nrShards
        = (.error .allPortsBusy, (maxPort - minPort + 1) / nrShards + 1)) ∧
    (∀ j c, j < (maxPort - minPort + 1) / nrShards + 1 →
      (∀ k, k < j → tryOpen k = none) → tryOpen j = some c →
      OpenShardConn tryOpen minPort maxPort nrShards = (.ok c, j + 1)) := by
  refine ⟨?_, ?_, ?_⟩
  · have := shardConnGo_tries_le tryOpen
      ((maxPort - minPort + 1) / nrShards + 1) 0
    unfold OpenShardConn
    cases h : (shardConnGo tryOpen 0 ((maxPort - minPort + 1) / nrShards + 1)).1 <;>
      simpa [h] using this
  · intro hall
    have := shardConnGo_all_fail tryOpen
      ((maxPort - minPort + 1) / nrShards + 1) 0 (fun k hk => by
        simpa using hall k hk)
    unfold OpenShardConn
    simp [this]
  · intro j c hlt hbefore hj
    have := shardConnGo_first_success tryOpen j
      ((maxPort - minPort + 1) / nrShards + 1) 0 c hlt
      (fun k hk => by simpa using hbefore k hk) (by simpa using hj)
    unfold OpenShardConn
    simp [this]

/-- Witness for C9: a port range of 10 ports over 2 shards gives 6
tries; with all tries failing the all-ports-busy error is returned
after 6 attempts, and with the third try succeeding the connection is
returned after 3 attempts. -/
theorem openShardConn_bounded_witness :
    (OpenShardConn (fun _ => none) 0 9 2).2 ≤ (9 - 0 + 1) / 2 + 1 ∧
    OpenShardConn (fun _ => none) 0 9 2 = (.error .allPortsBusy, 6) ∧
    OpenShardConn (fun k => if k = 2 then some 77 else none) 0 9 2
      = (.ok 77, 3) := by
  refine ⟨?_, ?_, ?_⟩
  · exact (openShardConn_bounded (fun _ => none) 0 9 2 (by decide)).1
  · exact (openShardConn_bounded (fun _ => none) 0 9 2 (by decide)).2.1
      (fun k _ => rfl)
  · exact (openShardConn_bounded (fun k => if k = 2 then some 77 else none)
      0 9 2 (by decide)).2.2 2 77 (by decide)
      (fun k hk => by interval_cases k <;> rfl) rfl

/-! ## Async execution and Fetch (src/query.go lines 106-142)

A response handler is a single-use rendezvous; in the embedding it is
identified with the value it will eventually deliver.  `AsyncExec`
appends a handler to `q.res`; `Fetch` consumes `q.res[0]`.  The result
conversion `transport.MakeQueryResult` is not under src/ and is an
oracle argument. -/

abbrev Handler := Except QErr Nat

/-- Embedding of `Query.AsyncExec`'s effect on the handler queue
(src/query.go lines 110, 115, 120): the new handler is appended at the
tail. -/
def asyncExecAppend (res : List Handler) (h : Handler) : List Handler :=
  res ++ [h]

/-- Embedding of `Query.Fetch` (src/query.go lines 127-142): an empty
queue yields `ErrNoQueryResults` and leaves the queue as is; otherwise
the head handler is removed and awaited, its error or converted
response returned. -/
def Fetch (makeQR : Nat → Except QErr QueryResult) (res : List Handler) :
    Except QErr QueryResult × List Handler :=
  match res with
  | [] => (.error .noQueryResults, [])
  | h :: t =>
    match h with
    | .error e => (.error e, t)
    | .ok resp => (makeQR resp, t)

/-- Value `Fetch` surfaces for one handler. -/
def handlerResult (makeQR : Nat → Except QErr QueryResult) (h : Handler) :
    Except QErr QueryResult :=
  match h with
  | .error e => .error e
  | .ok resp => makeQR resp

/-- Results of repeated `Fetch` calls until the queue empties; each call
recurses on the queue `Fetch` leaves behind (its tail). -/
def drainResults (makeQR : Nat → Except QErr QueryResult) :
    List Handler → List (Except QErr QueryResult)
  | [] => []
  | h :: t => (Fetch makeQR (h :: t)).1 :: drainResults makeQR t

/-- C10.  `Fetch` on an empty queue returns `ErrNoQueryResults` with the
queue unchanged; on a non-empty queue it removes exactly the oldest
handler and surfaces its value; draining the queue returns handler
values in the first-in-first-out order of the `AsyncExec` calls that
appended them, so appending a handler appends its value to the drain
sequence. -/
theorem fetch_fifo (makeQR : Nat → Except QErr QueryResult) :
    Fetch makeQR [] = (.error .noQueryResults, []) ∧
    (∀ (h : Handler) (t : List Handler),
      Fetch makeQR (h :: t) = (handlerResult makeQR h, t)) ∧
    (∀ hs : List Handler,
      drainResults makeQR hs = hs.map (handlerResult makeQR)) ∧
    (∀ (res : List Handler) (h : Handler),
      drainResults makeQR (asyncExecAppend res h)
        = drainResults makeQR res ++ [handlerResult makeQR h]) := by
  have hmap : ∀ hs : List Handler,
      drainResults makeQR hs = hs.map (handlerResult makeQR) := by
    intro hs
    induction hs with
    | nil => rfl
    | cons h t ih =>
      cases h <;> simp [drainResults, Fetch, handlerResult, ih]
  refine ⟨rfl, ?_, hmap, ?_⟩
  · intro h t
    cases h <;> rfl
  · intro res h
    rw [hmap, hmap, asyncExecAppend, List.map_append]
    rfl

/-! ## The paging-iterator worker (src/query.go lines 451-478)

`iterWorker.loop` waits on the request channel, runs one page fetch
(`w.exec`), stores the returned paging state, delivers the page on the
next channel, and stops after an error or a page with no more pages.
The embedding consumes the list of signals the loop would receive on
its request channel (the list ending models the channel being closed)
and records, besides the emitted channel events, the sequence of
`(fetch number, paging state)` pairs handed to `w.exec`. -/

inductive IterEvent where
  | next (res : QueryResult)
  | errOut (e : QErr)
deriving DecidableEq, Repr

/-- Embedding of the `for` loop of `iterWorker.loop` (src/query.go lines
459-477); `fetch k ps` is the result of the `k`-th `w.exec(ctx)` call
made with `w.pagingState = ps` (w.exec's own retry loop is embedded by
`execGo`-style oracles and summarised here by its result).  Returns the
events delivered on the next/error channels and the fetch calls made. -/
def iterLoopGo (fetch : Nat → Option (List Nat) → Except QErr QueryResult)
    (reqs : List Unit) (k : Nat) (ps : Option (List Nat)) :
    List IterEvent × List (Nat × Option (List Nat)) :=
  match reqs with
  | [] => ([], [])
  | _ :: rest =>
    match fetch k ps with
    | .error e => ([.errOut e], [(k, ps)])
    | .ok res =>
        if res.hasMorePages then
          let q := iterLoopGo fetch rest (k + 1) res.pagingState
          (.next res :: q.1, (k, ps) :: q.2)
        else
          ([.next res, .errOut .noMoreRows], [(k, ps)])

/-- Embedding of the node-selection preamble of `iterWorker.loop`
(src/query.go lines 452-457): no candidate node means an immediate
error delivery and no fetch. -/
def iterWorkerLoop (pickNode : Nat → Option Nat)
    (fetch : Nat → Option (List Nat) → Except QErr QueryResult)
    (reqs : List Unit) (ps : Option (List Nat)) :
    List IterEvent × List (Nat × Option (List Nat)) :=
  match pickNode 0 with
  | none => ([.errOut .cantPickNode], [])
  | some _ => iterLoopGo fetch reqs 0 ps

/-- Link between consecutive fetch calls: numbering advances by one and
the paging state handed to the next call is the one returned by the
previous, successful, has-more-pages fetch. -/
def fetchLink (fetch : Nat → Option (List Nat) → Except QErr QueryResult)
    (a b : Nat × Option (List Nat)) : Prop :=
  b.1 = a.1 + 1 ∧
  ∃ r, fetch a.1 a.2 = .ok r ∧ r.hasMorePages = true ∧ b.2 = r.pagingState

theorem iterLoopGo_calls_le
    (fetch : Nat → Option (List Nat) → Except QErr QueryResult) :
    ∀ reqs k ps, (iterLoopGo fetch reqs k ps).2.length ≤ reqs.length := by
  intro reqs
  induction reqs with
  | nil => intro k ps; simp [iterLoopGo]
  | cons u rest ih =>
    intro k ps
    cases hf : fetch k ps with
    | error e => simp [iterLoopGo, hf]
    | ok res =>
      by_cases hm : res.hasMorePages
      · simpa [iterLoopGo, hf, hm] using ih (k + 1) res.pagingState
      · simp [iterLoopGo, hf, hm]

theorem iterLoopGo_calls_head
    (fetch : Nat → Option (List Nat) → Except QErr QueryResult) :
    ∀ reqs k ps, (iterLoopGo fetch reqs k ps).2 ≠ [] →
    (iterLoopGo fetch reqs k ps).2.head? = some (k, ps) := by
  intro reqs k ps _
  cases reqs with
  | nil => simp [iterLoopGo] at *
  | cons u rest =>
    cases hf : fetch k ps with
    | error e => simp [iterLoopGo, hf]
    | ok res =>
      by_cases hm : res.hasMorePages <;> simp [iterLoopGo, hf, hm]

theorem iterLoopGo_chain
    (fetch : Nat → Option (List Nat) → Except QErr QueryResult) :
    ∀ reqs k ps, List.Chain' (fetchLink fetch) (iterLoopGo fetch reqs k ps).2 := by
  intro reqs
  induction reqs with
  | nil => intro k ps; simp [iterLoopGo]
  | cons u rest ih =>
    intro k ps
    cases hf : fetch k ps with
    | error e => simp [iterLoopGo, hf]
    | ok res =>
      by_cases hm : res.hasMorePages
      · simp only [iterLoopGo, hf, hm, if_true]
        refine List.chain'_cons'.mpr ⟨?_, ih (k + 1) res.pagingState⟩
        intro b hb
        have hne : (iterLoopGo fetch rest (k + 1) res.pagingState).2 ≠ [] := by
          intro hnil
          rw [hnil] at hb
          simp at hb
        have := iterLoopGo_calls_head fetch rest (k + 1) res.pagingState hne
        rw [this] at hb
        cases hb
        exact ⟨rfl, res, hf, hm, rfl⟩
      · simp [iterLoopGo, hf, hm]

theorem iterLoopGo_pages
    (fetch : Nat → Option (List Nat) → Except QErr QueryResult) :
    ∀ reqs k ps,
    (iterLoopGo fetch reqs k ps).1.filterMap
        (fun ev => match ev with | .next r => some r | .errOut _ => none)
      = (iterLoopGo fetch reqs k ps).2.filterMap
        (fun c => (fetch c.1 c.2).toOption) := by
  intro reqs
  induction reqs with
  | nil => intro k ps; simp [iterLoopGo]
  | cons u rest ih =>
    intro k ps
    cases hf : fetch k ps with
    | error e => simp [iterLoopGo, hf, Except.toOption]
    | ok res =>
      by_cases hm : res.hasMorePages
      · simpa [iterLoopGo, hf, hm, Except.toOption] using ih (k + 1) res.pagingState
      · simp [iterLoopGo, hf, hm, Except.toOption]

theorem iterLoopGo_last_page
    (fetch : Nat → Option (List Nat) → Except QErr QueryResult) :
    ∀ reqs k ps c r, c ∈ (iterLoopGo fetch reqs k ps).2 →
    fetch c.1 c.2 = .ok r → r.hasMorePages = false →
    (iterLoopGo fetch reqs k ps).1.getLast? = some (.errOut .noMoreRows) := by
  intro reqs
  induction reqs with
  | nil => intro k ps c r hc; simp [iterLoopGo] at hc
  | cons u rest ih =>
    intro k ps c r hc hfr hm
    cases hf : fetch k ps with
    | error e =>
      rw [iterLoopGo] at hc
      simp only [hf] at hc
      simp at hc
      subst hc
      rw [hfr] at hf
      cases hf
    | ok res =>
      by_cases hmore : res.hasMorePages
      · rw [iterLoopGo] at hc ⊢
        simp only [hf, hmore, if_true] at hc ⊢
        rcases List.mem_cons.mp hc with rfl | hc
        · rw [hfr] at hf
          cases hf
          exact absurd hmore (by simp [hm])
        · have hlast := ih (k + 1) res.pagingState c r hc hfr hm
          cases hq : (iterLoopGo fetch rest (k + 1) res.pagingState).1 with
          | nil => rw [hq] at hlast; cases hlast
          | cons a l =>
            rw [hq] at hlast
            simpa [List.getLast?_cons_cons, hq] using hlast
      · simp [iterLoopGo, hf, hmore]

/-- C5.  Over any run of the worker loop: at most one page fetch happens
per request signal (none after the loop stops); the first fetch uses
the initial paging state and every following fetch uses exactly the
paging state returned by the preceding successful page, with the fetch
number advancing by one (so any fetch whose page ends the sequence has
no successor); the pages delivered on the next channel are exactly the
successful fetch results in order; and whenever a delivered page has
`HasMorePages = false` the final delivered event is `ErrNoMoreRows` on
the error channel. -/
theorem iterWorker_loop_protocol
    (fetch : Nat → Option (List Nat) → Except QErr QueryResult)
    (reqs : List Unit) (k : Nat) (ps : Option (List Nat)) :
    (iterLoopGo fetch reqs k ps).2.length ≤ reqs.length ∧
    ((iterLoopGo fetch reqs k ps).2 ≠ [] →
      (iterLoopGo fetch reqs k ps).2.head? = some (k, ps)) ∧
    List.Chain' (fetchLink fetch) (iterLoopGo fetch reqs k ps).2 ∧
    (iterLoopGo fetch reqs k ps).1.filterMap
        (fun ev => match ev with | .next r => some r | .errOut _ => none)
      = (iterLoopGo fetch reqs k ps).2.filterMap
        (fun c => (fetch c.1 c.2).toOption) ∧
    (∀ c r, c ∈ (iterLoopGo fetch reqs k ps).2 →
      fetch c.1 c.2 = .ok r → r.hasMorePages = false →
      (iterLoopGo fetch reqs k ps).1.getLast? = some (.errOut .noMoreRows)) :=
  ⟨iterLoopGo_calls_le fetch reqs k ps,
   iterLoopGo_calls_head fetch reqs k ps,
   iterLoopGo_chain fetch reqs k ps,
   iterLoopGo_pages fetch reqs k ps,
   fun c r hc hf hm => iterLoopGo_last_page fetch reqs k ps c r hc hf hm⟩

/-- Witness for C5 on a concrete two-page run: three request signals, a
first page carrying paging state `[9]` with more pages, a second page
without; the worker makes two fetches starting from the initial state,
delivers both pages, and ends with `ErrNoMoreRows`. -/
theorem iterWorker_loop_protocol_witness :
    (iterLoopGo
        (fun k _ => if k = 0 then Except.ok (QueryResult.mk [1] (some [9]) true)
          else Except.ok (QueryResult.mk [2] none false))
        [(), (), ()] 0 none).2.head? = some (0, none) ∧
    (iterLoopGo
        (fun k _ => if k = 0 then Except.ok (QueryResult.mk [1] (some [9]) true)
          else Except.ok (QueryResult.mk [2] none false))
        [(), (), ()] 0 none).1.getLast? = some (.errOut .noMoreRows) := by
  constructor
  · exact (iterWorker_loop_protocol
      (fun k _ => if k = 0 then Except.ok (QueryResult.mk [1] (some [9]) true)
        else Except.ok (QueryResult.mk [2] none false))
      [(), (), ()] 0 none).2.1 (by decide)
  · exact (iterWorker_loop_protocol
      (fun k _ => if k = 0 then Except.ok (QueryResult.mk [1] (some [9]) true)
        else Except.ok (QueryResult.mk [2] none false))
      [(), (), ()] 0 none).2.2.2.2 (1, some [9]) (QueryResult.mk [2] none false)
      (by decide) rfl rfl

/-! ## The paging-iterator consumer (src/query.go lines 381-419)

`Iter.Next` serves rows from the current page; on exhaustion it waits
on the next/error channels, resets its position, sends a request
signal, skips a zero-row page by retrying, and treats `ErrNoMoreRows`
as a clean end.  The embedding threads the iterator state and the list
of channel messages the `select` would receive; the result is the
returned `(row, error)` pair plus the number of request signals sent,
or `none` when the code would block on an empty message supply. -/

structure IterState where
  closed : Bool
  pos : Nat
  rowCnt : Nat
  rows : List Nat
  err : Option QErr
deriving DecidableEq, Repr

inductive ChanMsg where
  | page (res : QueryResult)
  | errMsg (e : QErr)
deriving DecidableEq, Repr

/-- State right after receiving a page on the next channel
(src/query.go lines 388-398): position reset, row count and rows from
the page, recorded error untouched. -/
def afterPage (err : Option QErr) (res : QueryResult) : IterState :=
  ⟨false, 0, res.rows.length, res.rows, err⟩

/-- Embedding of `Iter.Next` (src/query.go lines 381-410): a closed
iterator returns `(nil, nil)`; a position inside the current page
returns that row; otherwise the next channel message is consumed — an
error message closes the iterator and returns `Close()`'s value, which
is the recorded error, left untouched by `ErrNoMoreRows`; a page resets
the position, sends one request signal, and a zero-row page makes
`Next` retry on the following message. -/
def iterNextRun (st : IterState) (msgs : List ChanMsg) :
    Option (Option Nat × Option QErr × Nat) :=
  if st.closed then some (none, none, 0)
  else if st.pos < st.rowCnt then
    some (some (st.rows.getD st.pos 0), none, 0)
  else
    match msgs with
    | [] => none
    | .errMsg e :: _ =>
        some (none, if e = QErr.noMoreRows then st.err else some e, 0)
    | .page res :: rest =>
        if res.rows.length = 0 then
          (iterNextRun (afterPage st.err res) rest).map
            (fun t => (t.1, t.2.1, t.2.2 + 1))
        else some (some (res.rows.getD 0 0), none, 1)

/-- A message that delivers a zero-row page. -/
def emptyPageMsg (m : ChanMsg) : Prop :=
  ∃ r, m = ChanMsg.page r ∧ r.rows = []

theorem iterNextRun_state_indep (msgs : List ChanMsg) (st st' : IterState)
    (h1 : st.closed = false) (h1' : st'.closed = false)
    (h2 : st.rowCnt ≤ st.pos) (h2' : st'.rowCnt ≤ st'.pos)
    (he : st.err = st'.err) :
    iterNextRun st msgs = iterNextRun st' msgs := by
  cases msgs with
  | nil => simp [iterNextRun, h1, h1', Nat.not_lt.mpr h2, Nat.not_lt.mpr h2']
  | cons m rest =>
    cases m with
    | errMsg e =>
      simp [iterNextRun, h1, h1', Nat.not_lt.mpr h2, Nat.not_lt.mpr h2', he]
    | page res =>
      by_cases hz : res.rows.length = 0 <;>
        simp [iterNextRun, h1, h1', Nat.not_lt.mpr h2, Nat.not_lt.mpr h2', hz,
          afterPage, he]

theorem iterNextRun_skip_empties (st : IterState)
    (h1 : st.closed = false) (h2 : st.rowCnt ≤ st.pos) :
    ∀ empties rest, (∀ m ∈ empties, emptyPageMsg m) →
    iterNextRun st (empties ++ rest)
      = (iterNextRun ⟨false, 0, 0, [], st.err⟩ rest).map
          (fun t => (t.1, t.2.1, t.2.2 + empties.length)) := by
  intro empties
  induction empties generalizing st with
  | nil =>
    intro rest _
    have := iterNextRun_state_indep rest st ⟨false, 0, 0, [], st.err⟩
      h1 rfl h2 (le_refl 0) rfl
    rw [List.nil_append, this]
    cases iterNextRun (⟨false, 0, 0, [], st.err⟩ : IterState) rest <;> simp
  | cons m ms ih =>
    intro rest hall
    obtain ⟨r, rfl, hr⟩ := hall m (List.mem_cons_self _ _)
    have hz : r.rows.length = 0 := by simp [hr]
    have hstep : iterNextRun st (ChanMsg.page r :: (ms ++ rest))
        = (iterNextRun (afterPage st.err r) (ms ++ rest)).map
            (fun t => (t.1, t.2.1, t.2.2 + 1)) := by
      simp [iterNextRun, h1, Nat.not_lt.mpr h2, hz]
    rw [List.cons_append, hstep]
    have hafter : afterPage st.err r = ⟨false, 0, 0, [], st.err⟩ := by
      simp [afterPage, hr]
    rw [hafter,
      ih ⟨false, 0, 0, [], st.err⟩ rfl (le_refl 0) rest
        (fun m hm => hall m (List.mem_cons_of_mem _ hm))]
    cases iterNextRun (⟨false, 0, 0, [], st.err⟩ : IterState) rest with
    | none => rfl
    | some t =>
      simp [List.length_cons]
      omega

theorem iterNextRun_row_origin :
    ∀ msgs (st : IterState) row e n,
    iterNextRun st msgs = some (some row, e, n) →
    (st.pos < st.rowCnt ∧ row = st.rows.getD st.pos 0) ∨
    (∃ res, ChanMsg.page res ∈ msgs ∧ res.rows ≠ [] ∧
      row = res.rows.getD 0 0) := by
  intro msgs
  induction msgs with
  | nil =>
    intro st row e n h
    cases h1 : st.closed
    · by_cases h2 : st.pos < st.rowCnt
      · rw [iterNextRun.eq_def] at h
        simp only [h1, Bool.false_eq_true, if_false, h2, if_true,
          Option.some.injEq, Prod.mk.injEq] at h
        exact Or.inl ⟨h2, h.1.symm⟩
      · simp [iterNextRun.eq_def, h1, h2] at h
    · simp [iterNextRun.eq_def, h1] at h
  | cons m rest ih =>
    intro st row e n h
    cases h1 : st.closed
    · by_cases h2 : st.pos < st.rowCnt
      · rw [iterNextRun.eq_def] at h
        simp only [h1, Bool.false_eq_true, if_false, h2, if_true,
          Option.some.injEq, Prod.mk.injEq] at h
        exact Or.inl ⟨h2, h.1.symm⟩
      · cases m with
        | errMsg e0 => simp [iterNextRun.eq_def, h1, h2] at h
        | page res =>
          by_cases hz : res.rows.length = 0
          · rw [iterNextRun.eq_def] at h
            simp only [h1, Bool.false_eq_true, if_false, h2, if_true, hz,
              Option.map_eq_some'] at h
            obtain ⟨t, ht, hteq⟩ := h
            obtain ⟨t1, t2, t3⟩ := t
            simp only [Prod.mk.injEq] at hteq
            obtain ⟨hrow, he2, -⟩ := hteq
            subst hrow
            have := ih (afterPage st.err res) row t2 t3 ht
            rcases this with ⟨hlt, -⟩ | ⟨res2, hm2, hne2, hrow2⟩
            · exact absurd hlt (by simp [afterPage, hz])
            · exact Or.inr ⟨res2, List.mem_cons_of_mem _ hm2, hne2, hrow2⟩
          · rw [iterNextRun.eq_def] at h
            simp only [h1, Bool.false_eq_true, if_false, h2, if_true, hz,
              Option.some.injEq, Prod.mk.injEq] at h
            refine Or.inr ⟨res, List.mem_cons_self _ _, ?_, h.1.symm⟩
            intro hnil
            exact hz (by simp [hnil])
    · simp [iterNextRun.eq_def, h1] at h

/-- C8.  Zero-row pages are invisible to the consumer: over any block of
empty pages, `Next` consumes them all, sending one request signal per
page, and behaves as if waiting directly on what follows; any row
`Next` returns comes from the current page at the cursor or from a
delivered non-empty page; and when the awaited error is `ErrNoMoreRows`
(with no failure recorded) `Next` reports a clean end: nil row and nil
error, while any other error is surfaced. -/
theorem iterNext_empty_pages_transparent (st : IterState)
    (h1 : st.closed = false) (h2 : st.rowCnt ≤ st.pos) :
    (∀ empties rest, (∀ m ∈ empties, emptyPageMsg m) →
      iterNextRun st (empties ++ rest)
        = (iterNextRun ⟨false, 0, 0, [], st.err⟩ rest).map
            (fun t => (t.1, t.2.1, t.2.2 + empties.length))) ∧
    (∀ msgs row e n, iterNextRun st msgs = some (some row, e, n) →
      (st.pos < st.rowCnt ∧ row = st.rows.getD st.pos 0) ∨
      (∃ res, ChanMsg.page res ∈ msgs ∧ res.rows ≠ [] ∧
        row = res.rows.getD 0 0)) ∧
    (st.err = none →
      ∀ rest, iterNextRun st (ChanMsg.errMsg QErr.noMoreRows :: rest)
        = some (none, none, 0)) ∧
    (∀ e rest, e ≠ QErr.noMoreRows →
      iterNextRun st (ChanMsg.errMsg e :: rest) = some (none, some e, 0)) := by
  refine ⟨iterNextRun_skip_empties st h1 h2,
    fun msgs row e n h => iterNextRun_row_origin msgs st row e n h, ?_, ?_⟩
  · intro herr rest
    simp [iterNextRun, h1, Nat.not_lt.mpr h2, herr]
  · intro e rest hne
    simp [iterNextRun, h1, Nat.not_lt.mpr h2, hne]

/-- Witness for C8 on a fresh iterator: one empty page followed by a
one-row page is consumed transparently (row 7 returned with two request
signals sent), and `ErrNoMoreRows` right away ends iteration with no
row and no error. -/
theorem iterNext_empty_pages_transparent_witness :
    iterNextRun ⟨false, 0, 0, [], none⟩
      ([ChanMsg.page ⟨[], none, true⟩] ++ [ChanMsg.page ⟨[7], none, false⟩])
      = (iterNextRun ⟨false, 0, 0, [], none⟩ [ChanMsg.page ⟨[7], none, false⟩]).map
          (fun t => (t.1, t.2.1, t.2.2 + 1)) ∧
    iterNextRun ⟨false, 0, 0, [], none⟩ [ChanMsg.errMsg QErr.noMoreRows]
      = some (none, none, 0) := by
  constructor
  · exact (iterNext_empty_pages_transparent ⟨false, 0, 0, [], none⟩ rfl
      (le_refl 0)).1 [ChanMsg.page ⟨[], none, true⟩]
      [ChanMsg.page ⟨[7], none, false⟩]
      (by intro m hm; rcases List.mem_singleton.mp hm with rfl
          exact ⟨⟨[], none, true⟩, rfl, rfl⟩)
  · exact (iterNext_empty_pages_transparent ⟨false, 0, 0, [], none⟩ rfl
      (le_refl 0)).2.2.1 rfl []

end ScyllaDriver
